import Mathlib

/-!
Verification development for the voice-command note plugin (`src/main.ts`).

The embedding models the core of the plugin:

* the character-level JS string primitives the code relies on
  (`toLowerCase`, `trim`, `substring`, `includes`, and the regexp
  `/^append to (.+?):\s*(.+)$/i` used by the append command),
* the command dispatch of `handleCommand` (lines 61-92), split - as in the
  design document - into a pure parser producing a `Command` and an
  executor running it against the note store,
* the note-store operations `getFileByName`, `createNote`, `appendTo`,
  `readNote`, `searchNotes` (lines 94-127), over a store modelled as a
  list of notes (title/basename plus content), and
* the HTTP request handler of `startServer` (lines 36-59), with the
  `JSON.parse` step and the awaited command handling modelled as fallible
  steps so that the `try`/`catch` control flow is captured faithfully.

Strings are Lean `String`s; character-level work happens on `String.data`
(lists of unicode scalar characters), which matches JS semantics for all
ASCII inputs (JS indices count UTF-16 code units, which coincide with
characters on ASCII text; `toLowerCase` is modelled by the ASCII case map
`Char.toLower`, as in the source all keyword matching is ASCII).
-/

namespace HAVoice

/-- JS whitespace class (the `\s` regexp class; also exactly the set of
characters removed by `String.prototype.trim`), by code point. -/
def isJsWhitespace (c : Char) : Bool :=
  c.toNat = 9 || c.toNat = 10 || c.toNat = 11 || c.toNat = 12 || c.toNat = 13 ||
  c.toNat = 32 || c.toNat = 160 || c.toNat = 5760 ||
  (8192 ≤ c.toNat && c.toNat ≤ 8202) ||
  c.toNat = 8232 || c.toNat = 8233 || c.toNat = 8239 || c.toNat = 8287 ||
  c.toNat = 12288 || c.toNat = 65279

/-- JS regexp line terminators: without the `s` flag, `.` matches any
character except these four. -/
def isLineTerminator (c : Char) : Bool :=
  c.toNat = 10 || c.toNat = 13 || c.toNat = 8232 || c.toNat = 8233

/-- JS `text.trim()` on a character list: drop JS whitespace from the left. -/
def jsTrimLeft (l : List Char) : List Char :=
  l.dropWhile isJsWhitespace

/-- Drop JS whitespace from the right end. -/
def jsTrimRight (l : List Char) : List Char :=
  (l.reverse.dropWhile isJsWhitespace).reverse

/-- JS `text.trim()`: whitespace removed from both ends. -/
def jsTrimList (l : List Char) : List Char :=
  jsTrimRight (jsTrimLeft l)

/-- JS `text.trim()` on a `String`. -/
def jsTrim (s : String) : String :=
  String.mk (jsTrimList s.data)

/-- JS `text.toLowerCase()` (ASCII case map, applied characterwise). -/
def jsToLower (s : String) : String :=
  String.mk (s.data.map Char.toLower)

/-- JS `haystack.includes(needle)`: `needle` occurs contiguously in
`haystack` (the empty needle always occurs). -/
def jsIncludes (haystack needle : List Char) : Bool :=
  haystack.tails.any fun t => needle.isPrefixOf t

/-- The tail part `\s*(.+)$` of the append regexp, matched against the whole
remainder of the input (both ends anchored: `\s*` starts right after the
colon, `$` is end of input).  Returns the text captured by `(.+)`.
`\s*` is greedy, so the longest whitespace run that still lets `(.+)` match
at least one non-line-terminator character is consumed; on failure the
engine backtracks one whitespace character at a time. -/
def matchContent : List Char → Option (List Char)
  | [] => none
  | c :: cs =>
    if isJsWhitespace c then
      match matchContent cs with
      | some b => some b
      | none =>
        if !isLineTerminator c && cs.all (fun d => !isLineTerminator d) then
          some (c :: cs)
        else none
    else
      if !isLineTerminator c && cs.all (fun d => !isLineTerminator d) then
        some (c :: cs)
      else none

/-- The part `(.+?):\s*(.+)$` of the append regexp.  `acc` holds (reversed)
the characters already committed to the lazy group `(.+?)`.  At each colon
the engine first tries to use it as the delimiter (the group is lazy and
must be nonempty); only if the rest fails does the colon itself join the
group.  Characters joining the group must be matchable by `.`, i.e. not
line terminators. -/
def scanAppend : List Char → List Char → Option (List Char × List Char)
  | _, [] => none
  | acc, c :: cs =>
    if c == ':' && !acc.isEmpty then
      match matchContent cs with
      | some b => some (acc.reverse, b)
      | none => scanAppend (c :: acc) cs
    else if isLineTerminator c then none
    else scanAppend (c :: acc) cs

/-- `text.match(/^append to (.+?):\s*(.+)$/i)` (src/main.ts line 69):
the literal `append to ` is matched case-insensitively at the very start of
the original (not lowercased, not trimmed) text, then the two groups are
captured.  Returns `(file, content)` on success. -/
def matchAppend (text : String) : Option (String × String) :=
  if (text.data.take 10).map Char.toLower = "append to ".data then
    match scanAppend [] (text.data.drop 10) with
    | some (t, b) => some (String.mk t, String.mk b)
    | none => none
  else none

/-- The tagged command variants of the design document (§3). -/
inductive Command where
  | createNote (title : String)
  | appendToNote (title content : String)
  | readNote (title : String)
  | listNotes
  | searchNotes (term : String)
  | unknown (originalText : String)
deriving DecidableEq, Repr

/-- Tail of the dispatch of `handleCommand` (src/main.ts lines 77-91): the
checks performed after the `create note` and `append to` branches have
fallen through.  `lower` is the lowercased trimmed copy of `text`.
`substring` offsets: `'read note '.length = 10`,
`'search for '.length = 11`. -/
def parseTail (text : String) (lower : List Char) : Command :=
  if "read note ".data.isPrefixOf lower then
    Command.readNote (String.mk (jsTrimList (text.data.drop 10)))
  else if lower = "list notes".data then
    Command.listNotes
  else if "search for ".data.isPrefixOf lower then
    Command.searchNotes (String.mk (jsTrimList (text.data.drop 11)))
  else
    Command.unknown text

/-- The dispatch of `handleCommand` with the binding
`lower = text.toLowerCase().trim()` passed explicitly: the keyword tests
run on `lower`, while the captured arguments are cut out of the original
`text` (`'create note '.length = 12`).  When the `append to ` prefix
matches but the regexp does not, control falls through to the remaining
checks, exactly as in the source. -/
def parseWith (text : String) (lower : List Char) : Command :=
  if "create note ".data.isPrefixOf lower then
    Command.createNote (String.mk (jsTrimList (text.data.drop 12)))
  else if "append to ".data.isPrefixOf lower then
    match matchAppend text with
    | some (file, content) => Command.appendToNote file content
    | none => parseTail text lower
  else
    parseTail text lower

/-- The parsing half of `handleCommand` (src/main.ts lines 61-92). -/
def parse (text : String) : Command :=
  parseWith text (jsTrimList (text.data.map Char.toLower))

/-- A stored note: markdown file basename (the note title) and content.
Modelled from the spec: the Note Store collaborator of §6 (the Obsidian
vault is not part of this repository); a durable map from title to content,
represented as a list in enumeration order. -/
structure Note where
  basename : String
  content : String
deriving DecidableEq, Repr

/-- `getFileByName` (src/main.ts lines 94-97): linear scan over all
markdown files, first exact basename match. -/
def getFileByName (name : String) (store : List Note) : Option Note :=
  store.find? fun f => f.basename == name

/-- `vault.create(name + ".md", '')`, as used by `createNote`.  Modelled
from the spec: creation adds a note with the given title and empty content
(enumeration position of the new note is unspecified; the model appends it
at the end). -/
def vaultCreate (name : String) (store : List Note) : List Note :=
  store ++ [Note.mk name ""]

/-- `vault.append(file, s)`: appends `s` to the content of the (first)
stored note equal to `file`.  Modelled from the spec: append concatenates
to that note's content; every other note is untouched. -/
def vaultAppend (file : Note) (s : String) : List Note → List Note
  | [] => []
  | f :: fs =>
    if f = file then { f with content := f.content ++ s } :: fs
    else f :: vaultAppend file s fs

/-- `createNote` (src/main.ts lines 99-103): no-op when a note with the
exact title already exists, otherwise create it with empty content. -/
def createNote (name : String) (store : List Note) : List Note :=
  match getFileByName name store with
  | some _ => store
  | none => vaultCreate name store

/-- `appendTo` (src/main.ts lines 105-109): look up the title; silent no-op
when absent; otherwise append the text preceded by a newline. -/
def appendTo (name text : String) (store : List Note) : List Note :=
  match getFileByName name store with
  | none => store
  | some file => vaultAppend file ("\n" ++ text) store

/-- `readNote` (src/main.ts lines 111-115): content of the note when
found, `none` otherwise. -/
def readNote (name : String) (store : List Note) : Option String :=
  match getFileByName name store with
  | none => none
  | some file => some file.content

/-- `searchNotes` (src/main.ts lines 117-127): titles of the notes whose
content contains the term as a case-insensitive substring, in enumeration
order. -/
def searchNotes (term : String) (store : List Note) : List String :=
  (store.filter fun f =>
    jsIncludes (f.content.data.map Char.toLower) (term.data.map Char.toLower)).map
    fun f => f.basename

/-- The executing half of `handleCommand` (src/main.ts lines 61-92): runs a
parsed command against the store and produces the result string together
with the new store.  `read note` falls back to the sentinel when the
lookup returns nothing (`content ?? 'note not found'`); `list notes` and
`search for` join with `', '`. -/
def execute (cmd : Command) (store : List Note) : String × List Note :=
  match cmd with
  | Command.createNote title =>
      ("created note " ++ title, createNote title store)
  | Command.appendToNote file content =>
      ("appended to " ++ file, appendTo file content store)
  | Command.readNote title =>
      (match readNote title store with
       | some content => content
       | none => "note not found", store)
  | Command.listNotes =>
      (String.intercalate ", " (store.map fun f => f.basename), store)
  | Command.searchNotes term =>
      (String.intercalate ", " (searchNotes term store), store)
  | Command.unknown _ =>
      ("unknown command", store)

/-- Body of an HTTP response, abstracting `JSON.stringify`:
`resultJson r` stands for `{"result": r}`, `errorBadRequest` for
`{"error": "bad request"}`, `empty` for an empty body. -/
inductive RespBody where
  | resultJson (result : String)
  | errorBadRequest
  | empty
deriving DecidableEq, Repr

/-- An HTTP response: status code and body. -/
structure HttpResponse where
  status : Nat
  body : RespBody
deriving DecidableEq, Repr

/-- The `POST /command` branch of the request handler
(src/main.ts lines 41-51).  Everything inside the JS `try` block is
modelled as one `Except` computation: `parseResult` is the outcome of
`JSON.parse` on the request body (carrying the `text` field, `none` when
absent or null, so `body?.text || ''` becomes `getD ""`), and `handle` is
the awaited `this.handleCommand` call, whose store operations may reject.
Any exception escaping the block lands in the `catch`, which produces the
400 bad-request response; otherwise the result is serialized with the
implicit 200 status. -/
def serveCommand (parseResult : Except Unit (Option String))
    (handle : String → Except Unit String) : HttpResponse :=
  match parseResult.bind (fun body => handle (body.getD "")) with
  | Except.ok result => { status := 200, body := RespBody.resultJson result }
  | Except.error _ => { status := 400, body := RespBody.errorBadRequest }

/-- The request router (src/main.ts lines 38-55): `POST /command` is served
by `serveCommand`; every other method/path combination gets an empty 404
response. -/
def handleRequest (method url : String) (parseResult : Except Unit (Option String))
    (handle : String → Except Unit String) : HttpResponse :=
  if method = "POST" ∧ url = "/command" then serveCommand parseResult handle
  else { status := 404, body := RespBody.empty }

/-! ### Basic helper lemmas -/

theorem data_mk (l : List Char) : (String.mk l).data = l := rfl

theorem isPrefixOf_append_self (l t : List Char) : l.isPrefixOf (l ++ t) = true := by
  simp [ List.isPrefixOf_iff_prefix]

theorem isPrefixOf_false_of_head {a b : Char} (as bs : List Char) (h : a ≠ b) :
    (a :: as).isPrefixOf (b :: bs) = false := by
  simp [List.isPrefixOf_cons₂, h]

theorem dropWhile_ne_nil_of_mem {p : Char → Bool} {l : List Char} {c : Char}
    (hc : c ∈ l) (hp : p c = false) : l.dropWhile p ≠ [] := by
  induction l with
  | nil => cases hc
  | cons a t ih =>
    rcases List.mem_cons.mp hc with rfl | hmem
    · simp [List.dropWhile_cons, hp]
    · by_cases h : p a
      · simpa [List.dropWhile_cons, h] using ih hmem
      · simp [List.dropWhile_cons, h]

theorem dropWhile_append_of_ne_nil {p : Char → Bool} {l₁ : List Char} (l₂ : List Char)
    (h : l₁.dropWhile p ≠ []) :
    (l₁ ++ l₂).dropWhile p = l₁.dropWhile p ++ l₂ := by
  rw [List.dropWhile_append]
  simp only [List.isEmpty_iff, h, if_false]

/-- Latin letters are not JS whitespace. -/
theorem isJsWhitespace_false_of_alpha (a : Char) (h1 : 65 ≤ a.toNat) (h2 : a.toNat ≤ 122) :
    isJsWhitespace a = false := by
  rw [Bool.eq_false_iff]
  intro hws
  simp only [isJsWhitespace, Bool.or_eq_true, decide_eq_true_eq, Bool.and_eq_true] at hws
  omega

/-- The ASCII case map sends no character into or out of the JS whitespace
class. -/
theorem isJsWhitespace_toLower (c : Char) :
    isJsWhitespace (Char.toLower c) = isJsWhitespace c := by
  simp only [Char.toLower]
  split
  · next h =>
    have hv : (Char.toNat c + 32).isValidChar := Or.inl (by omega)
    have ht : (Char.ofNat (Char.toNat c + 32)).toNat = Char.toNat c + 32 := by
      simp only [Char.ofNat, hv, dif_pos]
      rfl
    rw [isJsWhitespace_false_of_alpha _ (by omega) (by omega),
      isJsWhitespace_false_of_alpha c (by omega) (by omega)]
  · rfl

/-- Lowercasing then trimming an input that begins with a keyword whose
first character is not whitespace and that continues with at least one
non-whitespace character keeps the keyword intact at the front; only the
right end of the remainder is trimmed. -/
theorem lower_trim_decomp (pre rest : List Char) (p0 : Char) (P : List Char)
    (hpre : pre.map Char.toLower = p0 :: P) (h0 : isJsWhitespace p0 = false)
    (hw : ∃ ch ∈ rest, isJsWhitespace (Char.toLower ch) = false) :
    jsTrimList ((pre ++ rest).map Char.toLower) =
      pre.map Char.toLower ++ jsTrimRight (rest.map Char.toLower) := by
  obtain ⟨ch, hch, hchw⟩ := hw
  have hmem : Char.toLower ch ∈ (rest.map Char.toLower).reverse := by
    simp only [List.mem_reverse]
    exact List.mem_map_of_mem Char.toLower hch
  have hne : ((rest.map Char.toLower).reverse).dropWhile isJsWhitespace ≠ [] :=
    dropWhile_ne_nil_of_mem hmem hchw
  rw [List.map_append, hpre]
  unfold jsTrimList jsTrimLeft jsTrimRight
  rw [List.cons_append, List.dropWhile_cons_of_neg (by simp [h0]), ← List.cons_append,
    List.reverse_append, dropWhile_append_of_ne_nil _ hne, List.reverse_append,
    List.reverse_reverse]

/-- Transfer a non-whitespace witness through the case map. -/
theorem exists_nonws_map {rest : List Char} (hw : ∃ ch ∈ rest, isJsWhitespace ch = false) :
    ∃ ch ∈ rest, isJsWhitespace (Char.toLower ch) = false := by
  obtain ⟨ch, h1, h2⟩ := hw
  exact ⟨ch, h1, by rw [isJsWhitespace_toLower]; exact h2⟩

/-- How `parse` behaves on an input that is a casing of `create note `
followed by anything containing a non-whitespace character: the first
branch fires and the title is the remainder of the original text,
trimmed. -/
theorem parse_create_of_decomp (pre rest : List Char)
    (hpre : pre.map Char.toLower = "create note ".data)
    (hw : ∃ ch ∈ rest, isJsWhitespace ch = false) :
    parse (String.mk (pre ++ rest)) = Command.createNote (String.mk (jsTrimList rest)) := by
  have hlen : pre.length = 12 := by
    have h := congrArg List.length hpre
    simpa using h
  have hlow := lower_trim_decomp pre rest 'c' "reate note ".data
    (by rw [hpre]) (by decide) (exists_nonws_map hw)
  have hdrop : (pre ++ rest).drop 12 = rest := by
    rw [← hlen]
    exact List.drop_left pre rest
  simp only [parse, parseWith, data_mk]
  rw [hlow, hpre, isPrefixOf_append_self, if_pos rfl, hdrop]

/-- Same for `read note `: the two earlier keyword tests fail on the head
character and the `read note` branch fires. -/
theorem parse_read_of_decomp (pre rest : List Char)
    (hpre : pre.map Char.toLower = "read note ".data)
    (hw : ∃ ch ∈ rest, isJsWhitespace ch = false) :
    parse (String.mk (pre ++ rest)) = Command.readNote (String.mk (jsTrimList rest)) := by
  have hlen : pre.length = 10 := by
    have h := congrArg List.length hpre
    simpa using h
  have hlow := lower_trim_decomp pre rest 'r' "ead note ".data
    (by rw [hpre]) (by decide) (exists_nonws_map hw)
  have hdrop : (pre ++ rest).drop 10 = rest := by
    rw [← hlen]
    exact List.drop_left pre rest
  simp only [parse, parseWith, parseTail, data_mk]
  rw [hlow, hpre, isPrefixOf_append_self,
    show "read note ".data ++ jsTrimRight (rest.map Char.toLower) =
      'r' :: ("ead note ".data ++ jsTrimRight (rest.map Char.toLower)) from rfl,
    isPrefixOf_false_of_head _ _ (by decide : 'c' ≠ 'r'),
    isPrefixOf_false_of_head _ _ (by decide : 'a' ≠ 'r')]
  simp [hdrop]

/-- Same for `search for `: every earlier test fails and the `search for`
branch fires. -/
theorem parse_search_of_decomp (pre rest : List Char)
    (hpre : pre.map Char.toLower = "search for ".data)
    (hw : ∃ ch ∈ rest, isJsWhitespace ch = false) :
    parse (String.mk (pre ++ rest)) = Command.searchNotes (String.mk (jsTrimList rest)) := by
  have hlen : pre.length = 11 := by
    have h := congrArg List.length hpre
    simpa using h
  have hlow := lower_trim_decomp pre rest 's' "earch for ".data
    (by rw [hpre]) (by decide) (exists_nonws_map hw)
  have hdrop : (pre ++ rest).drop 11 = rest := by
    rw [← hlen]
    exact List.drop_left pre rest
  have hne : ¬ ('s' :: ("earch for ".data ++ jsTrimRight (rest.map Char.toLower)) =
      "list notes".data) := by
    intro h
    rw [show "list notes".data = 'l' :: "ist notes".data from rfl] at h
    injection h with h1 h2
    exact absurd h1 (by decide)
  simp only [parse, parseWith, parseTail, data_mk]
  rw [hlow, hpre, isPrefixOf_append_self,
    show "search for ".data ++ jsTrimRight (rest.map Char.toLower) =
      's' :: ("earch for ".data ++ jsTrimRight (rest.map Char.toLower)) from rfl,
    isPrefixOf_false_of_head _ _ (by decide : 'c' ≠ 's'),
    isPrefixOf_false_of_head _ _ (by decide : 'a' ≠ 's'),
    isPrefixOf_false_of_head _ _ (by decide : 'r' ≠ 's'),
    if_neg (by decide : ¬ (false = true)),
    if_neg (by decide : ¬ (false = true)),
    if_neg (by decide : ¬ (false = true)),
    if_neg hne, if_pos rfl, hdrop]

/-- C2, counterexample.  The claim quantifies over every text whose
lowercased **and trimmed** copy starts with the keyword, but the code cuts
the argument out of the original text at a fixed offset from position 0.
On `"  create note Foo"` (leading whitespace) the lowercased trimmed copy
starts with `create note `, yet the parsed title is `"e Foo"`, not the
substring `"Foo"` that follows the prefix. -/
theorem C2_counterexample :
    parse "  create note Foo" = Command.createNote "e Foo" ∧
    parse "  create note Foo" ≠ Command.createNote "Foo" := by
  constructor
  · decide
  · decide

/-- C2 (amended): for every input text that decomposes as a casing of the
keyword (`create note ` / `read note ` / `search for `) followed by a
remainder containing at least one non-whitespace character, `parse` yields
the corresponding command whose title/term argument is the remainder of
the original text - the substring starting at the offset equal to the
keyword's length - trimmed of leading and trailing whitespace, original
casing preserved.  (This coincides with "the substring after the prefix"
exactly when the input carries no leading whitespace.) -/
theorem C2_amended (pre rest : List Char)
    (hw : ∃ ch ∈ rest, isJsWhitespace ch = false) :
    (pre.map Char.toLower = "create note ".data →
      parse (String.mk (pre ++ rest)) = Command.createNote (String.mk (jsTrimList rest))) ∧
    (pre.map Char.toLower = "read note ".data →
      parse (String.mk (pre ++ rest)) = Command.readNote (String.mk (jsTrimList rest))) ∧
    (pre.map Char.toLower = "search for ".data →
      parse (String.mk (pre ++ rest)) = Command.searchNotes (String.mk (jsTrimList rest))) :=
  ⟨fun hpre => parse_create_of_decomp pre rest hpre hw,
   fun hpre => parse_read_of_decomp pre rest hpre hw,
   fun hpre => parse_search_of_decomp pre rest hpre hw⟩

/-- C2, witness: the amended statement evaluated on concrete inputs with
mixed keyword casing and whitespace around the argument. -/
theorem C2_witness :
    parse "Create note Foo" = Command.createNote "Foo" ∧
    parse "READ NOTE Foo" = Command.readNote "Foo" ∧
    parse "Search for  bar " = Command.searchNotes "bar" := by
  refine ⟨?_, ?_, ?_⟩
  · exact (C2_amended "Create note ".data "Foo".data (by decide)).1 (by decide)
  · exact (C2_amended "READ NOTE ".data "Foo".data (by decide)).2.1 (by decide)
  · exact (C2_amended "Search for ".data " bar ".data (by decide)).2.2 (by decide)

/-! ### The append pattern -/

/-- `\s*(.+)$` succeeds on a whitespace run followed by content that starts
with a non-whitespace character and contains no line terminator: the
greedy `\s*` eats exactly the run and `(.+)` captures the rest. -/
theorem matchContent_ws_append (w : List Char) (d : Char) (cs : List Char)
    (hw : ∀ ch ∈ w, isJsWhitespace ch = true)
    (hd : isJsWhitespace d = false)
    (hlt : ∀ ch ∈ d :: cs, isLineTerminator ch = false) :
    matchContent (w ++ d :: cs) = some (d :: cs) := by
  induction w with
  | nil =>
    have h1 : isLineTerminator d = false := hlt d (by simp)
    have h2 : cs.all (fun ch => !isLineTerminator ch) = true := by
      rw [List.all_eq_true]
      intro ch hch
      simp [hlt ch (List.mem_cons_of_mem d hch)]
    simp [matchContent, hd, h1, h2]
  | cons a w' ih =>
    have ha : isJsWhitespace a = true := hw a (by simp)
    have ih' := ih fun ch hch => hw ch (List.mem_cons_of_mem a hch)
    simp [matchContent, ha, ih']

/-- The lazy group walks through a block free of colons and line
terminators without committing to a delimiter. -/
theorem scanAppend_walk : ∀ (f : List Char),
    (∀ ch ∈ f, ch ≠ ':' ∧ isLineTerminator ch = false) →
    ∀ (acc l : List Char), scanAppend acc (f ++ l) = scanAppend (f.reverse ++ acc) l := by
  intro f
  induction f with
  | nil =>
    intro _ acc l
    simp
  | cons a f' ih =>
    intro hf acc l
    have ha := hf a (by simp)
    have h1 : (a == ':') = false := by simp [ha.1]
    rw [List.cons_append]
    simp only [scanAppend, h1, Bool.false_and, Bool.false_eq_true, if_false, ha.2]
    rw [ih (fun ch hch => hf ch (List.mem_cons_of_mem a hch)) (a :: acc) l]
    simp [List.append_assoc]

/-- The full append pattern on a well-shaped input
`<caseless append to ><file>:<whitespace><content>`. -/
theorem matchAppend_decomp (pre f w : List Char) (d : Char) (cs : List Char)
    (hpre : pre.map Char.toLower = "append to ".data)
    (hf : f ≠ [] ∧ ∀ ch ∈ f, ch ≠ ':' ∧ isLineTerminator ch = false)
    (hw : ∀ ch ∈ w, isJsWhitespace ch = true)
    (hd : isJsWhitespace d = false)
    (hlt : ∀ ch ∈ d :: cs, isLineTerminator ch = false) :
    matchAppend (String.mk (pre ++ (f ++ ':' :: (w ++ d :: cs)))) =
      some (String.mk f, String.mk (d :: cs)) := by
  have hlen : pre.length = 10 := by
    have h := congrArg List.length hpre
    simpa using h
  have htake : (pre ++ (f ++ ':' :: (w ++ d :: cs))).take 10 = pre := by
    rw [← hlen]
    exact List.take_left pre _
  have hdrop : (pre ++ (f ++ ':' :: (w ++ d :: cs))).drop 10 = f ++ ':' :: (w ++ d :: cs) := by
    rw [← hlen]
    exact List.drop_left pre _
  have hemp : f.reverse.isEmpty = false := by
    simp [List.isEmpty_iff, hf.1]
  unfold matchAppend
  rw [data_mk, htake, hpre, if_pos rfl, hdrop,
    scanAppend_walk f hf.2 [] (':' :: (w ++ d :: cs))]
  simp only [scanAppend, matchContent_ws_append w d cs hw hd hlt, List.append_nil,
    List.reverse_reverse]
  simp [hemp]

/-- C3, counterexample.  Without the `s` flag, `.` matches no line
terminator, so a content containing a newline makes the whole pattern
fail and the input parses as Unknown, contradicting the claim that the
captured content "may contain arbitrary characters, including
newlines". -/
theorem C3_counterexample :
    parse "append to a: b\nc" = Command.unknown "append to a: b\nc" ∧
    parse "append to a: b\nc" ≠ Command.appendToNote "a" "b\nc" := by
  constructor
  · decide
  · decide

/-- C3 (amended): for every input of the form `append to <file>: <content>`
(keywords matched case-insensitively over the original text), where the
file part is nonempty and free of colons and line terminators and the
content part starts with a non-whitespace character and is free of line
terminators, parse yields AppendToNote whose captured content extends
greedily to the end of the input and may contain arbitrary characters
**except line terminators** (further colons, inner and trailing whitespace
all included); a newline anywhere in the file or content part makes the
pattern fail instead. -/
theorem C3_amended (pre f w : List Char) (d : Char) (cs : List Char)
    (hpre : pre.map Char.toLower = "append to ".data)
    (hf : f ≠ [] ∧ ∀ ch ∈ f, ch ≠ ':' ∧ isLineTerminator ch = false)
    (hw : ∀ ch ∈ w, isJsWhitespace ch = true)
    (hd : isJsWhitespace d = false)
    (hlt : ∀ ch ∈ d :: cs, isLineTerminator ch = false) :
    parse (String.mk (pre ++ (f ++ ':' :: (w ++ d :: cs)))) =
      Command.appendToNote (String.mk f) (String.mk (d :: cs)) := by
  have hnonws : ∃ ch ∈ f ++ ':' :: (w ++ d :: cs), isJsWhitespace ch = false :=
    ⟨':', by simp, by decide⟩
  have hlow := lower_trim_decomp pre (f ++ ':' :: (w ++ d :: cs)) 'a' "ppend to ".data
    (by rw [hpre]) (by decide) (exists_nonws_map hnonws)
  have hmatch := matchAppend_decomp pre f w d cs hpre hf hw hd hlt
  simp only [parse, parseWith, data_mk]
  rw [hlow, hpre, isPrefixOf_append_self,
    show "append to ".data ++ jsTrimRight ((f ++ ':' :: (w ++ d :: cs)).map Char.toLower) =
      'a' :: ("ppend to ".data ++
        jsTrimRight ((f ++ ':' :: (w ++ d :: cs)).map Char.toLower)) from rfl,
    isPrefixOf_false_of_head _ _ (by decide : 'c' ≠ 'a'),
    hmatch]
  simp

/-- C3, witness: the amended statement on a concrete append command whose
content contains an inner space. -/
theorem C3_witness :
    parse "append to Foo: hello world" = Command.appendToNote "Foo" "hello world" := by
  exact C3_amended "append to ".data "Foo".data [' '] 'h' "ello world".data
    (by decide) (by decide) (by decide) (by decide) (by decide)

/-- Soundness of `\s*(.+)$`: every successful match splits the remainder
into a whitespace run and a nonempty capture free of line terminators. -/
theorem matchContent_sound : ∀ (r b : List Char), matchContent r = some b →
    ∃ w, r = w ++ b ∧ (∀ ch ∈ w, isJsWhitespace ch = true) ∧ b ≠ [] ∧
      ∀ ch ∈ b, isLineTerminator ch = false := by
  intro r
  induction r with
  | nil =>
    intro b h
    simp [matchContent] at h
  | cons c cs ih =>
    intro b h
    have tail_case : ∀ (hx : (if !isLineTerminator c && cs.all (fun d => !isLineTerminator d)
        then some (c :: cs) else none) = some b),
        ∃ w, c :: cs = w ++ b ∧ (∀ ch ∈ w, isJsWhitespace ch = true) ∧ b ≠ [] ∧
          ∀ ch ∈ b, isLineTerminator ch = false := by
      intro hx
      split at hx
      · next hcond =>
        obtain ⟨h1, h2⟩ := Bool.and_eq_true _ _ ▸ hcond
        injection hx with hb
        refine ⟨[], by simp [hb], by simp, by simp [← hb], ?_⟩
        intro ch hch
        rw [← hb] at hch
        rcases List.mem_cons.mp hch with rfl | hch'
        · simpa using h1
        · have := (List.all_eq_true.mp h2) ch hch'
          simpa using this
      · exact absurd hx (by simp)
    by_cases hws : isJsWhitespace c = true
    · rw [matchContent, if_pos hws] at h
      cases hmc : matchContent cs with
      | some b' =>
        rw [hmc] at h
        injection h with hb
        subst hb
        obtain ⟨w, hw1, hw2, hw3, hw4⟩ := ih b' hmc
        refine ⟨c :: w, ?_, ?_, hw3, hw4⟩
        · rw [List.cons_append, ← hw1]
        · intro ch hch
          rcases List.mem_cons.mp hch with rfl | hch'
          · exact hws
          · exact hw2 ch hch'
      | none =>
        rw [hmc] at h
        exact tail_case h
    · rw [matchContent, if_neg hws] at h
      exact tail_case h

/-- Soundness and minimality of the lazy scan for `(.+?):\s*(.+)$`: a
successful scan splits the input at a colon such that the part before it
(together with the already-committed `acc`) forms the nonempty lazy group,
the remainder matches the content pattern, and every strictly earlier
colon either would leave the group empty or has a remainder on which the
content pattern fails. -/
theorem scanAppend_sound : ∀ (l acc t b : List Char), scanAppend acc l = some (t, b) →
    ∃ p r, l = p ++ ':' :: r ∧ t = acc.reverse ++ p ∧ matchContent r = some b ∧
      t ≠ [] ∧
      ∀ p' r', l = p' ++ ':' :: r' → p'.length < p.length →
        acc.reverse ++ p' = [] ∨ matchContent r' = none := by
  intro l
  induction l with
  | nil =>
    intro acc t b h
    simp [scanAppend] at h
  | cons c cs ih =>
    intro acc t b h
    by_cases hcol : (c == ':' && !acc.isEmpty) = true
    · obtain ⟨hc, hacc⟩ := Bool.and_eq_true _ _ ▸ hcol
      have hc' : c = ':' := by simpa using hc
      have hacc' : acc ≠ [] := by
        cases acc
        · simp at hacc
        · simp
      rw [scanAppend, if_pos hcol] at h
      cases hmc : matchContent cs with
      | some b0 =>
        rw [hmc] at h
        injection h with hpair
        have ht : acc.reverse = t := congrArg Prod.fst hpair
        have hb : b0 = b := congrArg Prod.snd hpair
        subst hc'
        refine ⟨[], cs, by simp, by simp [ht], by rw [hb] at hmc; exact hmc, ?_, ?_⟩
        · rw [← ht]
          simp [hacc']
        · intro p' r' _ hlen
          exact absurd hlen (by simp)
      | none =>
        rw [hmc] at h
        obtain ⟨p₂, r₂, hl, ht, hmc₂, htne, hmin⟩ := ih (c :: acc) t b h
        subst hc'
        refine ⟨':' :: p₂, r₂, by rw [List.cons_append, hl], ?_, hmc₂, htne, ?_⟩
        · rw [ht]
          simp
        · intro p' r' hsplit hlen
          cases p' with
          | nil =>
            rw [List.nil_append] at hsplit
            injection hsplit with hc2 hcs
            right
            rw [← hcs]
            exact hmc
          | cons q p₃ =>
            rw [List.cons_append] at hsplit
            injection hsplit with hq hcs
            have hlen' : p₃.length < p₂.length := by
              simp only [List.length_cons] at hlen
              omega
            rcases hmin p₃ r' hcs hlen' with hnil | hnone
            · exfalso
              have hz := congrArg List.length hnil
              simp at hz
            · exact Or.inr hnone
    · rw [scanAppend, if_neg hcol] at h
      by_cases hlt : isLineTerminator c = true
      · rw [if_pos hlt] at h
        exact absurd h (by simp)
      · rw [if_neg hlt] at h
        obtain ⟨p₂, r₂, hl, ht, hmc₂, htne, hmin⟩ := ih (c :: acc) t b h
        refine ⟨c :: p₂, r₂, by rw [List.cons_append, hl], ?_, hmc₂, htne, ?_⟩
        · rw [ht]
          simp
        · intro p' r' hsplit hlen
          cases p' with
          | nil =>
            rw [List.nil_append] at hsplit
            injection hsplit with hc2 hcs
            left
            subst hc2
            have haccnil : acc = [] := by
              cases acc with
              | nil => rfl
              | cons x xs => simp at hcol
            simp [haccnil]
          | cons q p₃ =>
            rw [List.cons_append] at hsplit
            injection hsplit with hq hcs
            have hlen' : p₃.length < p₂.length := by
              simp only [List.length_cons] at hlen
              omega
            rcases hmin p₃ r' hcs hlen' with hnil | hnone
            · exfalso
              have hz := congrArg List.length hnil
              simp at hz
            · exact Or.inr hnone

/-- The fall-through branches never produce an append command. -/
theorem parseTail_ne_append (text : String) (lower : List Char) (f b : String) :
    parseTail text lower ≠ Command.appendToNote f b := by
  unfold parseTail
  split
  · simp
  · split
    · simp
    · split
      · simp
      · simp

/-- An append command can only come out of a successful regexp match. -/
theorem parse_appendToNote_inv (text : String) (f b : String)
    (h : parse text = Command.appendToNote f b) :
    matchAppend text = some (f, b) := by
  unfold parse parseWith at h
  cases hm : matchAppend text with
  | some fc =>
    obtain ⟨f0, b0⟩ := fc
    rw [hm] at h
    split at h
    · exact absurd h (by simp)
    · split at h
      · have h' : Command.appendToNote f0 b0 = Command.appendToNote f b := h
        injection h' with h1 h2
        rw [h1, h2]
      · exact absurd h (parseTail_ne_append _ _ _ _)
  | none =>
    rw [hm] at h
    split at h
    · exact absurd h (by simp)
    · split at h
      · exact absurd h (parseTail_ne_append _ _ _ _)
      · exact absurd h (parseTail_ne_append _ _ _ _)

/-- C10: for every input that parses as AppendToNote, the original text
decomposes as a caseless `append to `, the captured title, a colon, a
skipped whitespace run and the captured content (which extends to the end
of the input); and the delimiting colon is the earliest one that lets the
remainder match: any strictly earlier split at a colon either leaves the
lazy title group empty or has a remainder rejected by `\s*(.+)$`. -/
theorem C10_firstColon (text f b : String)
    (h : parse text = Command.appendToNote f b) :
    ∃ pre p w, pre.map Char.toLower = "append to ".data ∧
      text.data = pre ++ (p ++ ':' :: (w ++ b.data)) ∧
      f.data = p ∧ p ≠ [] ∧
      (∀ ch ∈ w, isJsWhitespace ch = true) ∧ b.data ≠ [] ∧
      (∀ ch ∈ b.data, isLineTerminator ch = false) ∧
      ∀ p' r', p ++ ':' :: (w ++ b.data) = p' ++ ':' :: r' → p'.length < p.length →
        p' = [] ∨ matchContent r' = none := by
  have hm := parse_appendToNote_inv text f b h
  unfold matchAppend at hm
  split at hm
  · next hpre =>
    split at hm
    · next t b0 hscan =>
      injection hm with hpair
      have hf : String.mk t = f := congrArg Prod.fst hpair
      have hb : String.mk b0 = b := congrArg Prod.snd hpair
      obtain ⟨p, r, hl, ht, hmc, htne, hmin⟩ := scanAppend_sound _ [] t b0 hscan
      obtain ⟨w, hrw, hwws, hbne, hblt⟩ := matchContent_sound r b0 hmc
      have hbdata : b.data = b0 := by rw [← hb]
      have hfdata : f.data = t := by rw [← hf]
      have htp : t = p := by simpa using ht
      refine ⟨text.data.take 10, p, w, hpre, ?_, by rw [hfdata, htp], ?_, hwws,
        by rw [hbdata]; exact hbne, by rw [hbdata]; exact hblt, ?_⟩
      · rw [hbdata, ← hrw, ← hl, List.take_append_drop]
      · rw [← htp]
        exact fun h0 => htne h0
      · intro p' r' hsplit hlen
        have hsplit' : text.data.drop 10 = p' ++ ':' :: r' := by
          rw [hl, hrw, hbdata] at *
          exact hsplit
        rcases hmin p' r' hsplit' hlen with hnil | hnone
        · exact Or.inl (by simpa using hnil)
        · exact Or.inr hnone
    · exact absurd hm (by simp)
  · exact absurd hm (by simp)

/-- C10, witness: the claim's own example `append to a: b: c`, where the
first colon delimits and the content keeps the second colon. -/
theorem C10_witness :
    ∃ pre p w, pre.map Char.toLower = "append to ".data ∧
      "append to a: b: c".data = pre ++ (p ++ ':' :: (w ++ "b: c".data)) ∧
      "a".data = p ∧ p ≠ [] ∧
      (∀ ch ∈ w, isJsWhitespace ch = true) ∧ "b: c".data ≠ [] ∧
      (∀ ch ∈ "b: c".data, isLineTerminator ch = false) ∧
      ∀ p' r', p ++ ':' :: (w ++ "b: c".data) = p' ++ ':' :: r' → p'.length < p.length →
        p' = [] ∨ matchContent r' = none :=
  C10_firstColon "append to a: b: c" "a" "b: c" (by decide)

/-! ### Trimming invariants (C4) -/

theorem jsTrimRight_eq_rdropWhile (l : List Char) :
    jsTrimRight l = List.rdropWhile isJsWhitespace l := rfl

/-- Trimming is idempotent. -/
theorem jsTrimList_idem (l : List Char) : jsTrimList (jsTrimList l) = jsTrimList l := by
  unfold jsTrimList
  have hTL : jsTrimLeft (jsTrimRight (jsTrimLeft l)) = jsTrimRight (jsTrimLeft l) := by
    cases hTR : jsTrimRight (jsTrimLeft l) with
    | nil => simp [jsTrimLeft]
    | cons a rest =>
      have hpre : jsTrimRight (jsTrimLeft l) <+: jsTrimLeft l := by
        rw [jsTrimRight_eq_rdropWhile]
        exact List.rdropWhile_prefix _ _
      obtain ⟨t, hsplit⟩ := hpre
      rw [hTR] at hsplit
      have hh := List.head?_dropWhile_not isJsWhitespace l
      rw [show l.dropWhile isJsWhitespace = jsTrimLeft l from rfl, ← hsplit] at hh
      simp only [List.cons_append, List.head?_cons] at hh
      simp [jsTrimLeft, List.dropWhile_cons, hh]
  rw [hTL, jsTrimRight_eq_rdropWhile, jsTrimRight_eq_rdropWhile,
    List.rdropWhile_idempotent]

theorem parseTail_createNote_ne (text : String) (lower : List Char) (t : String) :
    parseTail text lower ≠ Command.createNote t := by
  unfold parseTail
  split
  · simp
  · split
    · simp
    · split
      · simp
      · simp

theorem parseTail_readNote_inv (text : String) (lower : List Char) (t : String)
    (h : parseTail text lower = Command.readNote t) :
    t = String.mk (jsTrimList (text.data.drop 10)) := by
  unfold parseTail at h
  split at h
  · injection h with h1
    exact h1.symm
  · split at h
    · exact absurd h (by simp)
    · split at h
      · exact absurd h (by simp)
      · exact absurd h (by simp)

theorem parseTail_searchNotes_inv (text : String) (lower : List Char) (t : String)
    (h : parseTail text lower = Command.searchNotes t) :
    t = String.mk (jsTrimList (text.data.drop 11)) := by
  unfold parseTail at h
  split at h
  · exact absurd h (by simp)
  · split at h
    · exact absurd h (by simp)
    · split at h
      · injection h with h1
        exact h1.symm
      · exact absurd h (by simp)

theorem parse_createNote_inv (text : String) (t : String)
    (h : parse text = Command.createNote t) :
    t = String.mk (jsTrimList (text.data.drop 12)) := by
  unfold parse parseWith at h
  cases hm : matchAppend text with
  | some fc =>
    obtain ⟨f0, b0⟩ := fc
    rw [hm] at h
    split at h
    · injection h with h1
      exact h1.symm
    · split at h
      · have h' : Command.appendToNote f0 b0 = Command.createNote t := h
        exact absurd h' (by simp)
      · exact absurd h (parseTail_createNote_ne _ _ _)
  | none =>
    rw [hm] at h
    split at h
    · injection h with h1
      exact h1.symm
    · split at h
      · exact absurd h (parseTail_createNote_ne _ _ _)
      · exact absurd h (parseTail_createNote_ne _ _ _)

theorem parse_readNote_inv (text : String) (t : String)
    (h : parse text = Command.readNote t) :
    t = String.mk (jsTrimList (text.data.drop 10)) := by
  unfold parse parseWith at h
  cases hm : matchAppend text with
  | some fc =>
    obtain ⟨f0, b0⟩ := fc
    rw [hm] at h
    split at h
    · exact absurd h (by simp)
    · split at h
      · have h' : Command.appendToNote f0 b0 = Command.readNote t := h
        exact absurd h' (by simp)
      · exact parseTail_readNote_inv _ _ _ h
  | none =>
    rw [hm] at h
    split at h
    · exact absurd h (by simp)
    · split at h
      · exact parseTail_readNote_inv _ _ _ h
      · exact parseTail_readNote_inv _ _ _ h

theorem parse_searchNotes_inv (text : String) (t : String)
    (h : parse text = Command.searchNotes t) :
    t = String.mk (jsTrimList (text.data.drop 11)) := by
  unfold parse parseWith at h
  cases hm : matchAppend text with
  | some fc =>
    obtain ⟨f0, b0⟩ := fc
    rw [hm] at h
    split at h
    · exact absurd h (by simp)
    · split at h
      · have h' : Command.appendToNote f0 b0 = Command.searchNotes t := h
        exact absurd h' (by simp)
      · exact parseTail_searchNotes_inv _ _ _ h
  | none =>
    rw [hm] at h
    split at h
    · exact absurd h (by simp)
    · split at h
      · exact parseTail_searchNotes_inv _ _ _ h
      · exact parseTail_searchNotes_inv _ _ _ h

/-- C4, counterexample.  The regexp captures of the append command are not
trimmed: `(.+)` is greedy up to the end of input, so trailing whitespace
stays in the captured content (and the lazy file capture can likewise keep
whitespace around the title). -/
theorem C4_counterexample :
    parse "append to a: b " = Command.appendToNote "a" "b " ∧
    jsTrim "b " ≠ "b " ∧
    parse "append to a : b" = Command.appendToNote "a " "b" ∧
    jsTrim "a " ≠ "a " := by
  refine ⟨by decide, by decide, by decide, by decide⟩

/-- C4 (amended): the title/term fields of CreateNote, ReadNote and
SearchNotes are always free of leading and trailing whitespace (they are
fixpoints of trimming); the AppendToNote captures, by contrast, come
verbatim from the regexp groups and may retain leading or trailing
whitespace. -/
theorem C4_amended (text : String) :
    (∀ t, parse text = Command.createNote t → jsTrim t = t) ∧
    (∀ t, parse text = Command.readNote t → jsTrim t = t) ∧
    (∀ t, parse text = Command.searchNotes t → jsTrim t = t) := by
  refine ⟨?_, ?_, ?_⟩
  · intro t h
    rw [parse_createNote_inv text t h]
    unfold jsTrim
    rw [data_mk, jsTrimList_idem]
  · intro t h
    rw [parse_readNote_inv text t h]
    unfold jsTrim
    rw [data_mk, jsTrimList_idem]
  · intro t h
    rw [parse_searchNotes_inv text t h]
    unfold jsTrim
    rw [data_mk, jsTrimList_idem]

/-- C4, witness: the amended statement on concrete parses. -/
theorem C4_witness : jsTrim "Foo" = "Foo" ∧ jsTrim "bar" = "bar" :=
  ⟨(C4_amended "create note  Foo ").1 "Foo" (by decide),
   (C4_amended "search for bar").2.2 "bar" (by decide)⟩

/-! ### Note store lemmas -/

theorem string_append_assoc (a b c : String) : (a ++ b) ++ c = a ++ (b ++ c) := by
  cases a with | mk x =>
  cases b with | mk y =>
  cases c with | mk z =>
  show String.mk ((x ++ y) ++ z) = String.mk (x ++ (y ++ z))
  rw [List.append_assoc]

theorem getFileByName_none {name : String} {store : List Note}
    (h : ∀ f ∈ store, f.basename ≠ name) : getFileByName name store = none := by
  unfold getFileByName
  rw [List.find?_eq_none]
  intro x hx
  simp [h x hx]

theorem getFileByName_first {name : String} (pre : List Note) (f : Note) (post : List Note)
    (hpre : ∀ g ∈ pre, g.basename ≠ name) (hf : f.basename = name) :
    getFileByName name (pre ++ f :: post) = some f := by
  unfold getFileByName
  induction pre with
  | nil => simp [hf]
  | cons g gs ih =>
    have hg : ¬ ((fun x => x.basename == name) g = true) := by
      simp [hpre g (List.mem_cons_self g gs)]
    rw [List.cons_append,
      @List.find?_cons_of_neg Note (fun x => x.basename == name) g _ hg]
    exact ih fun x hx => hpre x (List.mem_cons_of_mem g hx)

theorem vaultAppend_skip (file : Note) (s : String) (pre rest : List Note)
    (hpre : ∀ g ∈ pre, g ≠ file) :
    vaultAppend file s (pre ++ rest) = pre ++ vaultAppend file s rest := by
  induction pre with
  | nil => simp
  | cons g gs ih =>
    rw [List.cons_append]
    simp only [vaultAppend, if_neg (hpre g (List.mem_cons_self g gs))]
    rw [ih fun x hx => hpre x (List.mem_cons_of_mem g hx), List.cons_append]

theorem vaultAppend_cons_self (file : Note) (s : String) (rest : List Note) :
    vaultAppend file s (file :: rest) = { file with content := file.content ++ s } :: rest := by
  simp [vaultAppend]

theorem appendTo_not_found {name : String} (text : String) {store : List Note}
    (h : ∀ f ∈ store, f.basename ≠ name) : appendTo name text store = store := by
  unfold appendTo
  rw [getFileByName_none h]

theorem appendTo_found (name text : String) (pre : List Note) (f : Note) (post : List Note)
    (hpre : ∀ g ∈ pre, g.basename ≠ name) (hf : f.basename = name) :
    appendTo name text (pre ++ f :: post) =
      pre ++ { f with content := f.content ++ "\n" ++ text } :: post := by
  unfold appendTo
  rw [getFileByName_first pre f post hpre hf]
  show vaultAppend f ("\n" ++ text) (pre ++ f :: post) =
    pre ++ { f with content := f.content ++ "\n" ++ text } :: post
  rw [vaultAppend_skip f _ pre (f :: post) (fun g hg heq => hpre g hg (heq ▸ hf)),
    vaultAppend_cons_self, string_append_assoc]

theorem createNote_found {title : String} {store : List Note}
    (h : ∃ f ∈ store, f.basename = title) : createNote title store = store := by
  obtain ⟨f, hf, hb⟩ := h
  have hsome : (store.find? fun x => x.basename == title).isSome := by
    rw [List.find?_isSome]
    exact ⟨f, hf, by simp [hb]⟩
  obtain ⟨g, hg⟩ := Option.isSome_iff_exists.mp hsome
  unfold createNote getFileByName
  rw [hg]

theorem createNote_not_found {title : String} {store : List Note}
    (h : ∀ f ∈ store, f.basename ≠ title) :
    createNote title store = store ++ [Note.mk title ""] := by
  unfold createNote
  rw [getFileByName_none h]
  rfl

theorem createNote_idem (title : String) (store : List Note) :
    createNote title (createNote title store) = createNote title store := by
  by_cases h : ∃ f ∈ store, f.basename = title
  · rw [createNote_found h, createNote_found h]
  · push_neg at h
    rw [createNote_not_found h]
    exact createNote_found ⟨Note.mk title "", by simp, rfl⟩

theorem mem_createNote (title : String) (store : List Note) (f : Note) (hf : f ∈ store) :
    f ∈ createNote title store := by
  unfold createNote
  split
  · exact hf
  · exact List.mem_append_left _ hf

theorem vaultAppend_map_basename (file : Note) (s : String) (store : List Note) :
    (vaultAppend file s store).map (fun f => f.basename) = store.map fun f => f.basename := by
  induction store with
  | nil => rfl
  | cons g gs ih =>
    by_cases h : g = file
    · simp [vaultAppend, h]
    · simp [vaultAppend, h, ih]

theorem appendTo_map_basename (name text : String) (store : List Note) :
    (appendTo name text store).map (fun f => f.basename) = store.map fun f => f.basename := by
  unfold appendTo
  split
  · rfl
  · exact vaultAppend_map_basename _ _ _

/-- C5: executing AppendToNote against a missing title mutates nothing and
still reports the unconditional success string; against an existing title
(the first note with that exact basename) it appends a newline and the
content to that note's text, reporting the same string. -/
theorem C5_executeAppend (title content : String) (store : List Note) :
    ((∀ f ∈ store, f.basename ≠ title) →
      execute (Command.appendToNote title content) store =
        ("appended to " ++ title, store)) ∧
    (∀ pre f post, store = pre ++ f :: post → (∀ g ∈ pre, g.basename ≠ title) →
      f.basename = title →
      execute (Command.appendToNote title content) store =
        ("appended to " ++ title,
          pre ++ { f with content := f.content ++ "\n" ++ content } :: post)) := by
  constructor
  · intro h
    simp only [execute]
    rw [appendTo_not_found content h]
  · intro pre f post hs hpre hf
    simp only [execute]
    rw [hs, appendTo_found title content pre f post hpre hf]

/-- C5, witness: appending to an existing note concatenates with a newline
separator; appending to a missing one is a fully silent no-op with the
same success message. -/
theorem C5_witness :
    execute (Command.appendToNote "Foo" "hello world") [Note.mk "Foo" "A"] =
      ("appended to Foo", [Note.mk "Foo" "A\nhello world"]) ∧
    execute (Command.appendToNote "Bar" "x") [Note.mk "Foo" "A"] =
      ("appended to Bar", [Note.mk "Foo" "A"]) := by
  constructor
  · exact (C5_executeAppend "Foo" "hello world" [Note.mk "Foo" "A"]).2
      [] (Note.mk "Foo" "A") [] rfl (by simp) rfl
  · exact (C5_executeAppend "Bar" "x" [Note.mk "Foo" "A"]).1 (by decide)

/-- C6: CreateNote never overwrites - when the title exists the store is
unchanged - yet always reports the success string; when the title is
missing a note with that title and empty content is created; hence the
command is idempotent on both the store and the result. -/
theorem C6_executeCreate (title : String) (store : List Note) :
    ((∃ f ∈ store, f.basename = title) →
      execute (Command.createNote title) store = ("created note " ++ title, store)) ∧
    ((∀ f ∈ store, f.basename ≠ title) →
      execute (Command.createNote title) store =
        ("created note " ++ title, store ++ [Note.mk title ""])) ∧
    execute (Command.createNote title) (execute (Command.createNote title) store).2 =
      execute (Command.createNote title) store := by
  refine ⟨?_, ?_, ?_⟩
  · intro h
    simp only [execute]
    rw [createNote_found h]
  · intro h
    simp only [execute]
    rw [createNote_not_found h]
  · simp only [execute]
    rw [createNote_idem]

/-- C6, witness: creating a fresh note, and creating it again. -/
theorem C6_witness :
    execute (Command.createNote "Foo") [] = ("created note Foo", [Note.mk "Foo" ""]) ∧
    execute (Command.createNote "Foo")
        (execute (Command.createNote "Foo") []).2 =
      execute (Command.createNote "Foo") [] := by
  constructor
  · exact (C6_executeCreate "Foo" []).2.1 (by decide)
  · exact (C6_executeCreate "Foo" []).2.2

/-- C7: ReadNote returns the exact full content of the (first) note whose
basename equals the title - an exact, case-sensitive string match - and
the sentinel `note not found` when no such note exists; the store is
untouched either way. -/
theorem C7_executeRead (title : String) (store : List Note) :
    ((∀ f ∈ store, f.basename ≠ title) →
      execute (Command.readNote title) store = ("note not found", store)) ∧
    (∀ pre f post, store = pre ++ f :: post → (∀ g ∈ pre, g.basename ≠ title) →
      f.basename = title →
      execute (Command.readNote title) store = (f.content, store)) := by
  constructor
  · intro h
    simp only [execute, readNote]
    rw [getFileByName_none h]
  · intro pre f post hs hpre hf
    simp only [execute, readNote]
    rw [hs, getFileByName_first pre f post hpre hf]

/-- C7, witness: reading an existing and a missing note (and the
case-sensitivity of the lookup: `foo` does not find `Foo`). -/
theorem C7_witness :
    execute (Command.readNote "Foo") [Note.mk "Foo" "A"] = ("A", [Note.mk "Foo" "A"]) ∧
    execute (Command.readNote "foo") [Note.mk "Foo" "A"] =
      ("note not found", [Note.mk "Foo" "A"]) := by
  constructor
  · exact (C7_executeRead "Foo" [Note.mk "Foo" "A"]).2 [] (Note.mk "Foo" "A") [] rfl (by simp) rfl
  · exact (C7_executeRead "foo" [Note.mk "Foo" "A"]).1 (by decide)

/-- `includes` agrees with contiguous-sublist containment. -/
theorem jsIncludes_iff (haystack needle : List Char) :
    jsIncludes haystack needle = true ↔ needle <:+: haystack := by
  unfold jsIncludes
  rw [List.any_eq_true]
  constructor
  · rintro ⟨t, ht, hp⟩
    rw [List.mem_tails] at ht
    simp only [ List.isPrefixOf_iff_prefix] at hp
    exact List.infix_iff_prefix_suffix.mpr ⟨t, hp, ht⟩
  · intro h
    obtain ⟨t, hp, ht⟩ := List.infix_iff_prefix_suffix.mp h
    refine ⟨t, (List.mem_tails _ _).mpr ht, ?_⟩
    simpa using hp

/-- C8: SearchNotes returns, joined by `", "`, the titles of exactly those
notes whose lowercased content contains the lowercased term as a
contiguous substring, in store enumeration order; the store is unchanged,
and the empty term matches every note. -/
theorem C8_executeSearch (term : String) (store : List Note) :
    (execute (Command.searchNotes term) store).2 = store ∧
    (execute (Command.searchNotes term) store).1 =
      String.intercalate ", " ((store.filter fun f =>
        decide ((term.data.map Char.toLower) <:+: (f.content.data.map Char.toLower))).map
        fun f => f.basename) ∧
    (term = "" →
      (execute (Command.searchNotes term) store).1 =
        String.intercalate ", " (store.map fun f => f.basename)) := by
  refine ⟨rfl, ?_, ?_⟩
  · simp only [execute, searchNotes]
    congr 2
    apply List.filter_congr
    intro f _
    cases hb : jsIncludes (f.content.data.map Char.toLower) (term.data.map Char.toLower) with
    | false =>
      have hni : ¬ ((term.data.map Char.toLower) <:+: (f.content.data.map Char.toLower)) := by
        rw [← jsIncludes_iff, hb]
        simp
      simp [hni]
    | true =>
      have hi := (jsIncludes_iff _ _).mp hb
      simp [hi]
  · intro ht
    subst ht
    simp only [execute, searchNotes]
    have hall : (store.filter fun f =>
        jsIncludes (f.content.data.map Char.toLower)
          (("" : String).data.map Char.toLower)) = store := by
      rw [List.filter_eq_self]
      intro f _
      apply (jsIncludes_iff _ _).mpr
      exact ⟨[], f.content.data.map Char.toLower, by simp⟩
    rw [hall]

/-- C8, witness: the empty term matches every note; a nonempty term
matches case-insensitively against content. -/
theorem C8_witness :
    (execute (Command.searchNotes "") [Note.mk "A" "Hello"]).1 = "A" ∧
    (execute (Command.searchNotes "ELL") [Note.mk "A" "Hello", Note.mk "B" "xyz"]).1 =
      String.intercalate ", " (([Note.mk "A" "Hello", Note.mk "B" "xyz"].filter fun f =>
        decide (("ELL".data.map Char.toLower) <:+: (f.content.data.map Char.toLower))).map
        fun f => f.basename) := by
  constructor
  · rw [(C8_executeSearch "" [Note.mk "A" "Hello"]).2.2 rfl]
    decide
  · exact (C8_executeSearch "ELL" [Note.mk "A" "Hello", Note.mk "B" "xyz"]).2.1

/-- C9: ReadNote, ListNotes, SearchNotes and Unknown leave the store
completely unchanged; every command other than AppendToNote leaves every
stored note intact (title and content); and no command ever deletes a
note - every stored title survives every execution. -/
theorem C9_frame (store : List Note) :
    (∀ title, (execute (Command.readNote title) store).2 = store) ∧
    ((execute Command.listNotes store).2 = store) ∧
    (∀ term, (execute (Command.searchNotes term) store).2 = store) ∧
    (∀ t, (execute (Command.unknown t) store).2 = store) ∧
    (∀ cmd, (∀ file content, cmd ≠ Command.appendToNote file content) →
      ∀ f ∈ store, f ∈ (execute cmd store).2) ∧
    (∀ cmd, ∀ f ∈ store, ∃ g ∈ (execute cmd store).2, g.basename = f.basename) := by
  refine ⟨fun _ => rfl, rfl, fun _ => rfl, fun _ => rfl, ?_, ?_⟩
  · intro cmd hne f hf
    cases cmd with
    | createNote title => exact mem_createNote title store f hf
    | appendToNote file content => exact absurd rfl (hne file content)
    | readNote title => exact hf
    | listNotes => exact hf
    | searchNotes term => exact hf
    | unknown t => exact hf
  · intro cmd f hf
    cases cmd with
    | createNote title =>
      exact ⟨f, mem_createNote title store f hf, rfl⟩
    | appendToNote file content =>
      have hmap := appendTo_map_basename file content store
      have hmem : f.basename ∈ (appendTo file content store).map fun g => g.basename := by
        rw [hmap]
        exact List.mem_map_of_mem _ hf
      obtain ⟨g, hg, hgb⟩ := List.mem_map.mp hmem
      exact ⟨g, hg, hgb⟩
    | readNote title => exact ⟨f, hf, rfl⟩
    | listNotes => exact ⟨f, hf, rfl⟩
    | searchNotes term => exact ⟨f, hf, rfl⟩
    | unknown t => exact ⟨f, hf, rfl⟩

/-- C9, witness: concrete frame checks on a one-note store. -/
theorem C9_witness :
    (execute (Command.readNote "A") [Note.mk "A" "x"]).2 = [Note.mk "A" "x"] ∧
    Note.mk "A" "x" ∈ (execute (Command.createNote "B") [Note.mk "A" "x"]).2 ∧
    ∃ g ∈ (execute (Command.appendToNote "A" "y") [Note.mk "A" "x"]).2,
      g.basename = (Note.mk "A" "x").basename := by
  refine ⟨(C9_frame [Note.mk "A" "x"]).1 "A",
    (C9_frame [Note.mk "A" "x"]).2.2.2.2.1 (Command.createNote "B")
      (fun file content => by simp) (Note.mk "A" "x") (by simp),
    (C9_frame [Note.mk "A" "x"]).2.2.2.2.2 (Command.appendToNote "A" "y")
      (Note.mk "A" "x") (by simp)⟩

/-- C1, counterexample.  The awaited `handleCommand` call sits inside the
same `try` block as `JSON.parse`, so an exception raised by the executor
or the note store during command handling is caught by the same `catch`
and produces the 400 bad-request response - not, as claimed, the 200
success response: here the body parses fine and only the handling step
fails, yet the status is 400. -/
theorem C1_counterexample :
    (serveCommand (Except.ok (some "list notes")) fun _ => Except.error ()).status = 400 ∧
    ¬ (serveCommand (Except.ok (some "list notes")) fun _ => Except.error ()).status = 200 := by
  constructor
  · rfl
  · decide

/-- C1 (amended): for every POST /command request, the 400 response with
the bad-request body is produced exactly when the `try` block throws,
i.e. when JSON-parsing of the request body fails **or** the executor /
note store fails during command handling - the two are not distinguished
from each other; only when both steps succeed is the 200 success response
with the result body produced. -/
theorem C1_amended (p : Except Unit (Option String)) (h : String → Except Unit String) :
    (handleRequest "POST" "/command" p h =
        { status := 400, body := RespBody.errorBadRequest } ↔
      p = Except.error () ∨ ∃ t, p = Except.ok t ∧ h (t.getD "") = Except.error ()) ∧
    (∀ t r, p = Except.ok t → h (t.getD "") = Except.ok r →
      handleRequest "POST" "/command" p h =
        { status := 200, body := RespBody.resultJson r }) := by
  constructor
  · cases p with
    | error u =>
      cases u
      simp [handleRequest, serveCommand, Except.bind]
    | ok t =>
      cases hr : h (t.getD "") with
      | error u =>
        cases u
        simp [handleRequest, serveCommand, Except.bind, hr]
      | ok r =>
        simp [handleRequest, serveCommand, Except.bind, hr]
  · intro t r hp hh
    subst hp
    simp [handleRequest, serveCommand, Except.bind, hh]

/-- C1, witness: a request whose body parses and whose handling succeeds
gets the 200 response carrying the result. -/
theorem C1_witness :
    handleRequest "POST" "/command" (Except.ok (some "list notes"))
      (fun _ => Except.ok "A, B") = { status := 200, body := RespBody.resultJson "A, B" } :=
  (C1_amended (Except.ok (some "list notes")) fun _ => Except.ok "A, B").2
    (some "list notes") "A, B" rfl rfl


end HAVoice
